import Mathlib

/-!
Verification of the Hangman game engine (`src/hangman_game/main.py`).

Strings are modelled as `List Char`, Python sets of single-letter strings as
`Finset Char`, Python `int` as `Int`, and wall-clock timestamps as explicit
`now : Nat` arguments threaded where the code calls `time.time()`.
-/

set_option maxHeartbeats 1000000

namespace Hangman

/-- Python `str.strip()`: drop leading and trailing whitespace. -/
def pyStrip (s : List Char) : List Char :=
  ((s.dropWhile Char.isWhitespace).reverse.dropWhile Char.isWhitespace).reverse

/-- The normalisation in `guess`: `(raw or "").strip().lower()`. -/
def pyNormalize (raw : List Char) : List Char :=
  (pyStrip raw).map Char.toLower

/-- Python `str.isalpha()`: non-empty and every character alphabetic. -/
def pyIsAlpha (w : List Char) : Bool :=
  !w.isEmpty && w.all Char.isAlpha

/-- The dataclass `GameState` from `main.py` lines 126-134. -/
structure GameState where
  secret : List Char
  max_mistakes : Int
  guessed : Finset Char
  mistakes : Int
  started_at : Nat
  ended_at : Option Nat
deriving DecidableEq

/-- `GameState.masked` (line 139): `" ".join(ch if ch in guessed else "_" for ch in secret)`. -/
def GameState.masked (s : GameState) : List Char :=
  List.intersperse ' ' (s.secret.map (fun ch => if ch ∈ s.guessed then ch else '_'))

/-- `GameState.wrong_letters` (line 143). -/
def GameState.wrong_letters (s : GameState) : Finset Char :=
  s.guessed.filter (fun g => g ∉ s.secret)

/-- `GameState.remaining` (line 147). -/
def GameState.remaining (s : GameState) : Int :=
  s.max_mistakes - s.mistakes

/-- `GameState.won` (line 151): `all(ch in self.guessed for ch in self.secret)`. -/
def GameState.won (s : GameState) : Prop :=
  ∀ ch ∈ s.secret, ch ∈ s.guessed

instance (s : GameState) : Decidable s.won := by
  unfold GameState.won; infer_instance

/-- `GameState.lost` (line 155): `self.mistakes >= self.max_mistakes`. -/
def GameState.lost (s : GameState) : Prop :=
  s.mistakes ≥ s.max_mistakes

instance (s : GameState) : Decidable s.lost := by
  unfold GameState.lost; infer_instance

/-- `GameState.finished` (line 159): `self.won or self.lost`. -/
def GameState.finished (s : GameState) : Prop :=
  s.won ∨ s.lost

instance (s : GameState) : Decidable s.finished := by
  unfold GameState.finished; infer_instance

/-- The accepted-guess branch of `HangmanEngine.guess` (lines 201-214). -/
def guessStep (state : GameState) (c : Char) (now : Nat) : GameState :=
  let guessed := insert c state.guessed
  let mistakes := state.mistakes + (if c ∈ state.secret then 0 else 1)
  { secret := state.secret
    max_mistakes := state.max_mistakes
    guessed := guessed
    mistakes := mistakes
    started_at := state.started_at
    ended_at :=
      if state.max_mistakes ≤ mistakes ∨ (∀ ch ∈ state.secret, ch ∈ guessed) then some now
      else none }

/-- `HangmanEngine.guess` (lines 188-214); `now` stands for the `time.time()` call. -/
def guess (state : GameState) (raw : List Char) (now : Nat) : GameState :=
  if state.finished then state
  else
    match pyNormalize raw with
    | [c] =>
      if c.isAlpha then
        if c ∈ state.guessed then state
        else guessStep state c now
      else state
    | _ => state

/-- The engine configuration kept by `HangmanEngine.__init__`: the filtered word
list `self._words` and the coerced budget `self._max_mistakes`. -/
structure HangmanEngine where
  words : List (List Char)
  max_mistakes : Int
deriving DecidableEq, Repr

/-- The intermediate list `vocab` of `HangmanEngine.__init__` (line 175):
`[w.strip().lower() for w in words if w and w.strip()]`. -/
def pyVocab (words : List (List Char)) : List (List Char) :=
  (words.filter (fun w => !w.isEmpty && !(pyStrip w).isEmpty)).map
    (fun w => (pyStrip w).map Char.toLower)

/-- `HangmanEngine.__init__` (lines 169-182): filter the vocabulary, fail when
nothing remains, coerce the budget to at least 1.  The two `ValueError` raises
are modelled as `Except.error` with the code's messages. -/
def mkEngine (words : List (List Char)) (max_mistakes : Int) : Except String HangmanEngine :=
  if (pyVocab words).isEmpty then Except.error "Word list must not be empty."
  else if ((pyVocab words).filter pyIsAlpha).isEmpty then
    Except.error "Word list must contain at least one alphabetic word."
  else Except.ok
    { words := (pyVocab words).filter pyIsAlpha, max_mistakes := max 1 max_mistakes }

/-- `HangmanEngine.new_game` (lines 184-186); the rng draw is modelled as the
chosen index `i` into the filtered vocabulary and `now` as `time.time()`. -/
def HangmanEngine.new_game (e : HangmanEngine) (i : Nat) (h : i < e.words.length)
    (now : Nat) : GameState :=
  { secret := e.words.get ⟨i, h⟩
    max_mistakes := e.max_mistakes
    guessed := ∅
    mistakes := 0
    started_at := now
    ended_at := none }

/-- The spec's description of the filtered vocabulary, for comparison with
`mkEngine`: trim, lowercase, discard entries that are empty or not purely
alphabetic. -/
def specFilteredVocab (words : List (List Char)) : List (List Char) :=
  (words.map (fun w => (pyStrip w).map Char.toLower)).filter pyIsAlpha

/-- States reachable from some `new_game` of engine `e` by repeated guesses. -/
inductive Reachable (e : HangmanEngine) : GameState → Prop where
  | init (i : Nat) (h : i < e.words.length) (now : Nat) :
      Reachable e (e.new_game i h now)
  | step (s : GameState) (raw : List Char) (now : Nat) :
      Reachable e s → Reachable e (guess s raw now)

/- ### Basic facts about `guess` -/

theorem guess_of_finished (s : GameState) (raw : List Char) (now : Nat)
    (hf : s.finished) : guess s raw now = s := by
  unfold guess
  rw [if_pos hf]

theorem guess_accept_eq (s : GameState) (raw : List Char) (now : Nat) (c : Char)
    (hf : ¬ s.finished) (hn : pyNormalize raw = [c]) (ha : c.isAlpha = true)
    (hg : c ∉ s.guessed) : guess s raw now = guessStep s c now := by
  unfold guess
  rw [if_neg hf, hn]
  simp only [ha, if_true, if_neg hg]

theorem guess_rejected (s : GameState) (raw : List Char) (now : Nat)
    (h : ∀ c, pyNormalize raw = [c] → c.isAlpha = false ∨ c ∈ s.guessed) :
    guess s raw now = s := by
  unfold guess
  by_cases hf : s.finished
  · rw [if_pos hf]
  · rw [if_neg hf]
    rcases hc : pyNormalize raw with _ | ⟨c, _ | ⟨d, t⟩⟩
    · rfl
    · rcases h c hc with ha | hg
      · simp [ha]
      · simp [hg]
    · rfl

/-- Every call to `guess` either returns the state unchanged or takes the
accepted-guess branch on a fresh valid letter. -/
theorem guess_cases (s : GameState) (raw : List Char) (now : Nat) :
    guess s raw now = s ∨
    ∃ c, pyNormalize raw = [c] ∧ c.isAlpha = true ∧ c ∉ s.guessed ∧ ¬ s.finished ∧
      guess s raw now = guessStep s c now := by
  by_cases hf : s.finished
  · exact Or.inl (guess_of_finished s raw now hf)
  · rcases hc : pyNormalize raw with _ | ⟨c, _ | ⟨d, t⟩⟩
    · exact Or.inl (guess_rejected s raw now (fun c h => by rw [hc] at h; exact absurd h (by simp)))
    · by_cases ha : c.isAlpha
      · by_cases hg : c ∈ s.guessed
        · refine Or.inl (guess_rejected s raw now (fun c' h => ?_))
          rw [hc] at h
          obtain rfl : c = c' := by injection h
          exact Or.inr hg
        · exact Or.inr ⟨c, rfl, ha, hg, hf, guess_accept_eq s raw now c hf hc ha hg⟩
      · refine Or.inl (guess_rejected s raw now (fun c' h => ?_))
        rw [hc] at h
        obtain rfl : c = c' := by injection h
        exact Or.inl (by simpa using ha)
    · exact Or.inl (guess_rejected s raw now (fun c h => by rw [hc] at h; exact absurd h (by simp)))

/-- Folding a whole sequence of guesses over a starting state. -/
def playGuesses (s : GameState) (gs : List (List Char × Nat)) : GameState :=
  gs.foldl (fun st g => guess st g.1 g.2) s

theorem guessStep_guessed (s : GameState) (c : Char) (now : Nat) :
    (guessStep s c now).guessed = insert c s.guessed := rfl

theorem guessStep_mistakes (s : GameState) (c : Char) (now : Nat) :
    (guessStep s c now).mistakes = s.mistakes + (if c ∈ s.secret then 0 else 1) := rfl

/- ### Claim theorems -/

/-- C1: on a non-terminal state, guessing a fresh valid letter adds the letter to
`guessed`, bumps `mistakes` exactly when the letter misses the secret, sets
`ended_at` exactly when the updated state is terminal, and preserves `secret`,
`max_mistakes` and `started_at`. -/
theorem guess_valid_letter_step (s : GameState) (raw : List Char) (now : Nat) (c : Char)
    (hf : ¬ s.finished) (hn : pyNormalize raw = [c]) (ha : c.isAlpha = true)
    (hg : c ∉ s.guessed) :
    (guess s raw now).guessed = insert c s.guessed ∧
    (guess s raw now).mistakes =
      (if c ∈ s.secret then s.mistakes else s.mistakes + 1) ∧
    ((guess s raw now).ended_at.isSome ↔
      ((∀ ch ∈ s.secret, ch ∈ insert c s.guessed) ∨
        (if c ∈ s.secret then s.mistakes else s.mistakes + 1) ≥ s.max_mistakes)) ∧
    (guess s raw now).secret = s.secret ∧
    (guess s raw now).max_mistakes = s.max_mistakes ∧
    (guess s raw now).started_at = s.started_at := by
  rw [guess_accept_eq s raw now c hf hn ha hg]
  have hm : (if c ∈ s.secret then s.mistakes else s.mistakes + 1) =
      s.mistakes + (if c ∈ s.secret then 0 else 1) := by
    by_cases h : c ∈ s.secret <;> simp [h]
  refine ⟨rfl, ?_, ?_, rfl, rfl, rfl⟩
  · rw [hm]; rfl
  · rw [hm]
    have he : (guessStep s c now).ended_at =
        (if s.max_mistakes ≤ s.mistakes + (if c ∈ s.secret then 0 else 1) ∨
          (∀ ch ∈ s.secret, ch ∈ insert c s.guessed) then some now else none) := rfl
    rw [he]
    by_cases hcond : s.max_mistakes ≤ s.mistakes + (if c ∈ s.secret then 0 else 1) ∨
        (∀ ch ∈ s.secret, ch ∈ insert c s.guessed)
    · rw [if_pos hcond]
      simp only [Option.isSome_some, true_iff]
      exact Or.symm hcond
    · rw [if_neg hcond]
      simp only [Option.isSome_none, Bool.false_eq_true, false_iff]
      exact fun hcon => hcond (Or.symm hcon)

/-- C2: guessing on a finished (won or lost) state returns the state unchanged,
whatever the input. -/
theorem guess_terminal_frozen (s : GameState) (raw : List Char) (now : Nat)
    (hf : s.finished) : guess s raw now = s :=
  guess_of_finished s raw now hf

/-- C3: inputs whose normalised form is not a single alphabetic letter, or whose
letter was already guessed, leave the state unchanged; `guess` is total, so no
exception can be raised. -/
theorem guess_invalid_noop (s : GameState) (raw : List Char) (now : Nat)
    (h : ∀ c, pyNormalize raw = [c] → c.isAlpha = false ∨ c ∈ s.guessed) :
    guess s raw now = s :=
  guess_rejected s raw now h

/-- C5: a single guess never decreases `mistakes` and never removes guessed
letters, and hence neither does any sequence of guesses. -/
theorem guess_monotone (s : GameState) (raw : List Char) (now : Nat) :
    (s.mistakes ≤ (guess s raw now).mistakes ∧ s.guessed ⊆ (guess s raw now).guessed) ∧
    ∀ gs : List (List Char × Nat),
      s.mistakes ≤ (playGuesses s gs).mistakes ∧ s.guessed ⊆ (playGuesses s gs).guessed := by
  have step : ∀ (t : GameState) (r : List Char) (n : Nat),
      t.mistakes ≤ (guess t r n).mistakes ∧ t.guessed ⊆ (guess t r n).guessed := by
    intro t r n
    rcases guess_cases t r n with he | ⟨c, hn, ha, hg, hf, he⟩ <;> rw [he]
    · exact ⟨le_refl _, Finset.Subset.refl _⟩
    · constructor
      · rw [guessStep_mistakes]; split_ifs <;> omega
      · rw [guessStep_guessed]; exact Finset.subset_insert _ _
  refine ⟨step s raw now, ?_⟩
  intro gs
  induction gs generalizing s with
  | nil => exact ⟨le_refl _, Finset.Subset.refl _⟩
  | cons g t ih =>
    have h1 := step s g.1 g.2
    have h2 := ih (guess s g.1 g.2)
    exact ⟨le_trans h1.1 h2.1, Finset.Subset.trans h1.2 h2.2⟩

/-- C6: repeating the same valid letter is absorbed: the second application of
`guess` with the same input returns its input state. -/
theorem guess_repeat_absorbed (s : GameState) (x : List Char) (n1 n2 : Nat) (c : Char)
    (hn : pyNormalize x = [c]) (ha : c.isAlpha = true) :
    guess (guess s x n1) x n2 = guess s x n1 := by
  by_cases hf : s.finished
  · rw [guess_of_finished s x n1 hf, guess_of_finished s x n2 hf]
  · by_cases hg : c ∈ s.guessed
    · have hrej : ∀ t : GameState, c ∈ t.guessed → ∀ n : Nat, guess t x n = t := by
        intro t hc n
        refine guess_rejected t x n (fun c' hc' => ?_)
        rw [hn] at hc'
        obtain rfl : c = c' := by injection hc'
        exact Or.inr hc
      rw [hrej s hg n1]
      exact hrej s hg n2
    · rw [guess_accept_eq s x n1 c hf hn ha hg]
      refine guess_rejected _ x n2 (fun c' hc' => ?_)
      rw [hn] at hc'
      obtain rfl : c = c' := by injection hc'
      exact Or.inr (by rw [guessStep_guessed]; exact Finset.mem_insert_self c s.guessed)

/- ### Engine construction -/

theorem guessStep_max (s : GameState) (c : Char) (now : Nat) :
    (guessStep s c now).max_mistakes = s.max_mistakes := rfl

theorem guessStep_secret (s : GameState) (c : Char) (now : Nat) :
    (guessStep s c now).secret = s.secret := rfl

theorem pyVocab_filter_eq (words : List (List Char)) :
    (pyVocab words).filter pyIsAlpha = specFilteredVocab words := by
  unfold pyVocab specFilteredVocab
  induction words with
  | nil => rfl
  | cons w t ih =>
    by_cases hP : (!w.isEmpty && !(pyStrip w).isEmpty) = true
    · simp only [List.filter_cons, List.map_cons, hP, if_true, ih]
    · have hstrip : pyStrip w = [] := by
        simp only [Bool.and_eq_true, Bool.not_eq_true', List.isEmpty_iff,
          List.isEmpty_eq_false, not_and_or, not_not] at hP
        rcases hP with rfl | h
        · rfl
        · exact h
      have hfw : pyIsAlpha ((pyStrip w).map Char.toLower) = false := by
        rw [hstrip]; rfl
      simp only [List.filter_cons, List.map_cons, hP, if_false, hfw,
        Bool.false_eq_true, ih]

theorem mkEngine_ok_fields (words : List (List Char)) (m : Int) (e : HangmanEngine)
    (hmk : mkEngine words m = Except.ok e) :
    e.words = specFilteredVocab words ∧ e.max_mistakes = max 1 m := by
  unfold mkEngine at hmk
  split_ifs at hmk with h1 h2
  injection hmk with h
  rw [← h]
  exact ⟨pyVocab_filter_eq words, rfl⟩

theorem mem_specFilteredVocab (words : List (List Char)) (w : List Char)
    (hw : w ∈ specFilteredVocab words) : w ≠ [] ∧ ∀ ch ∈ w, ch.isAlpha = true := by
  unfold specFilteredVocab at hw
  have halpha : pyIsAlpha w = true := (List.mem_filter.mp hw).2
  unfold pyIsAlpha at halpha
  rw [Bool.and_eq_true, Bool.not_eq_true', List.isEmpty_eq_false] at halpha
  exact ⟨halpha.1, List.all_eq_true.mp halpha.2⟩

/-- C7: construction fails exactly when trimming, lowercasing and discarding
empty or non-alphabetic entries leaves no word at all; any vocabulary with at
least one valid alphabetic word is accepted. -/
theorem mkEngine_fails_iff (words : List (List Char)) (m : Int) :
    (∃ msg, mkEngine words m = Except.error msg) ↔ specFilteredVocab words = [] := by
  constructor
  · rintro ⟨msg, hmsg⟩
    unfold mkEngine at hmsg
    split_ifs at hmsg with h1 h2
    · have hv : pyVocab words = [] := List.isEmpty_iff.mp h1
      rw [← pyVocab_filter_eq, hv]
      rfl
    · rw [← pyVocab_filter_eq]
      exact List.isEmpty_iff.mp h2
  · intro hs
    have hws : ((pyVocab words).filter pyIsAlpha).isEmpty = true := by
      rw [pyVocab_filter_eq, hs]; rfl
    unfold mkEngine
    by_cases h1 : (pyVocab words).isEmpty
    · rw [if_pos h1]; exact ⟨_, rfl⟩
    · rw [if_neg h1, if_pos hws]; exact ⟨_, rfl⟩

/-- C8: a fresh game drawn from a successfully built engine has its secret in
the filtered vocabulary (hence non-empty and alphabetic), no guesses, zero
mistakes, no end timestamp, and the budget coerced to at least 1. -/
theorem new_game_spec (words : List (List Char)) (m : Int) (e : HangmanEngine)
    (i : Nat) (h : i < e.words.length) (now : Nat)
    (hmk : mkEngine words m = Except.ok e) :
    (e.new_game i h now).secret ∈ specFilteredVocab words ∧
    (e.new_game i h now).secret ≠ [] ∧
    (∀ ch ∈ (e.new_game i h now).secret, ch.isAlpha = true) ∧
    (e.new_game i h now).guessed = ∅ ∧
    (e.new_game i h now).mistakes = 0 ∧
    (e.new_game i h now).ended_at = none ∧
    (e.new_game i h now).max_mistakes = max 1 m ∧
    1 ≤ (e.new_game i h now).max_mistakes := by
  obtain ⟨hw, hm⟩ := mkEngine_ok_fields words m e hmk
  have hsec : (e.new_game i h now).secret = e.words.get ⟨i, h⟩ := rfl
  have hmem : (e.new_game i h now).secret ∈ specFilteredVocab words := by
    rw [hsec, ← hw]
    exact List.get_mem e.words i h
  obtain ⟨hne, halpha⟩ := mem_specFilteredVocab words _ hmem
  have hmax : (e.new_game i h now).max_mistakes = max 1 m := hm
  refine ⟨hmem, hne, halpha, rfl, rfl, rfl, hmax, ?_⟩
  rw [hmax]
  exact le_max_left 1 m

/- ### Reachability invariants -/

/-- C4: along any game reachable from `new_game`, `mistakes` never exceeds
`max_mistakes`; on a loss it equals it exactly, and `remaining` is never
negative. -/
theorem reachable_mistakes_le (words : List (List Char)) (m : Int) (e : HangmanEngine)
    (s : GameState) (hmk : mkEngine words m = Except.ok e) (hr : Reachable e s) :
    s.mistakes ≤ s.max_mistakes ∧ (s.lost → s.mistakes = s.max_mistakes) ∧
    0 ≤ s.remaining := by
  have hmax : e.max_mistakes = max 1 m := (mkEngine_ok_fields words m e hmk).2
  have hinv : s.mistakes ≤ s.max_mistakes := by
    induction hr with
    | init i h now =>
      show (0 : Int) ≤ e.max_mistakes
      rw [hmax]
      have h1 : (1 : Int) ≤ max 1 m := le_max_left 1 m
      omega
    | step t raw now hr ih =>
      rcases guess_cases t raw now with he | ⟨c, hn, ha, hg, hf, he⟩ <;> rw [he]
      · exact ih
      · rw [guessStep_mistakes, guessStep_max]
        have hnl : ¬ t.lost := fun hl => hf (Or.inr hl)
        unfold GameState.lost at hnl
        split_ifs <;> omega
  refine ⟨hinv, ?_, ?_⟩
  · intro hl
    unfold GameState.lost at hl
    omega
  · unfold GameState.remaining
    omega

/-- C10: on every reachable state, `ended_at` is set exactly when the state is
finished, so dispatching on `finished` agrees with dispatching on `ended_at`. -/
theorem reachable_ended_iff_finished (words : List (List Char)) (m : Int)
    (e : HangmanEngine) (s : GameState) (hmk : mkEngine words m = Except.ok e)
    (hr : Reachable e s) : s.ended_at.isSome ↔ s.finished := by
  induction hr with
  | init i h now =>
    have h1 : (e.new_game i h now).ended_at = none := rfl
    rw [h1]
    simp only [Option.isSome_none, Bool.false_eq_true, false_iff]
    intro hfin
    rcases hfin with hwon | hlost
    · have hmem : (e.new_game i h now).secret ∈ specFilteredVocab words := by
        have hw := (mkEngine_ok_fields words m e hmk).1
        have : (e.new_game i h now).secret = e.words.get ⟨i, h⟩ := rfl
        rw [this, ← hw]
        exact List.get_mem e.words i h
      obtain ⟨hne, _⟩ := mem_specFilteredVocab words _ hmem
      obtain ⟨ch, hch⟩ := List.exists_mem_of_ne_nil _ hne
      have hguessed : ch ∈ (e.new_game i h now).guessed := hwon ch hch
      have hempty : (e.new_game i h now).guessed = ∅ := rfl
      rw [hempty] at hguessed
      exact absurd hguessed (Finset.not_mem_empty ch)
    · unfold GameState.lost at hlost
      have h2 : (e.new_game i h now).mistakes = 0 := rfl
      have h3 : (e.new_game i h now).max_mistakes = e.max_mistakes := rfl
      have hmax : e.max_mistakes = max 1 m := (mkEngine_ok_fields words m e hmk).2
      have h4 : (1 : Int) ≤ max 1 m := le_max_left 1 m
      rw [h2, h3, hmax] at hlost
      omega
  | step t raw now hr ih =>
    rcases guess_cases t raw now with he | ⟨c, hn, ha, hg, hf, he⟩ <;> rw [he]
    · exact ih
    · have hend : (guessStep t c now).ended_at =
          (if t.max_mistakes ≤ t.mistakes + (if c ∈ t.secret then 0 else 1) ∨
            (∀ ch ∈ t.secret, ch ∈ insert c t.guessed) then some now else none) := rfl
      have hfin : (guessStep t c now).finished ↔
          ((∀ ch ∈ t.secret, ch ∈ insert c t.guessed) ∨
            t.max_mistakes ≤ t.mistakes + (if c ∈ t.secret then 0 else 1)) := by
        unfold GameState.finished GameState.won GameState.lost
        rw [guessStep_secret, guessStep_guessed, guessStep_mistakes, guessStep_max]
      rw [hend, hfin]
      by_cases hcond : t.max_mistakes ≤ t.mistakes + (if c ∈ t.secret then 0 else 1) ∨
          (∀ ch ∈ t.secret, ch ∈ insert c t.guessed)
      · rw [if_pos hcond]
        simp only [Option.isSome_some, true_iff]
        exact Or.symm hcond
      · rw [if_neg hcond]
        simp only [Option.isSome_none, Bool.false_eq_true, false_iff]
        exact fun hcon => hcond (Or.symm hcon)

/- ### Masked rendering -/

theorem filter_intersperse_of_ne (l : List Char) (h : ∀ ch ∈ l, ¬ ch = ' ') :
    (List.intersperse ' ' l).filter (fun ch => ch ≠ ' ') = l := by
  induction l with
  | nil => rfl
  | cons a t ih =>
    cases t with
    | nil =>
      rw [List.intersperse_singleton]
      have ha := h a (by simp)
      simp [List.filter_cons, ha]
    | cons b t2 =>
      rw [List.intersperse_cons_cons]
      have ha := h a (by simp)
      have hrest : ∀ ch ∈ b :: t2, ¬ ch = ' ' := fun ch hch => h ch (by simp [hch])
      simpa [List.filter_cons, ha] using ih hrest

/-- C9: with the space separators stripped, `masked` has the secret's length and
shows `secret[i]` where that character has been guessed and an underscore
elsewhere (stated for secrets within the data model, i.e. alphabetic, so that
no secret character collides with the separator). -/
theorem masked_strip_spec (s : GameState) (hs : ∀ ch ∈ s.secret, ch.isAlpha = true) :
    (s.masked.filter (fun ch => ch ≠ ' ')).length = s.secret.length ∧
    s.masked.filter (fun ch => ch ≠ ' ') =
      s.secret.map (fun ch => if ch ∈ s.guessed then ch else '_') := by
  have hne : ∀ ch ∈ s.secret.map (fun ch => if ch ∈ s.guessed then ch else '_'),
      ¬ ch = ' ' := by
    intro ch hch
    rw [List.mem_map] at hch
    obtain ⟨x, hx, rfl⟩ := hch
    by_cases hxg : x ∈ s.guessed
    · simp only [hxg, if_true]
      intro heq
      have halpha := hs x hx
      rw [heq] at halpha
      exact absurd halpha (by decide)
    · simp [hxg]
  have key : s.masked.filter (fun ch => ch ≠ ' ') =
      s.secret.map (fun ch => if ch ∈ s.guessed then ch else '_') := by
    unfold GameState.masked
    exact filter_intersperse_of_ne _ hne
  exact ⟨by rw [key, List.length_map], key⟩

/- ### Concrete states for witnesses -/

/-- A fresh two-letter game used by witnesses. -/
def sAB : GameState :=
  { secret := ['a', 'b'], max_mistakes := 2, guessed := ∅, mistakes := 0,
    started_at := 0, ended_at := none }

/-- A lost game used by witnesses. -/
def sGone : GameState :=
  { secret := ['a', 'b'], max_mistakes := 1, guessed := {'z'}, mistakes := 1,
    started_at := 0, ended_at := some 7 }

theorem guess_valid_letter_step_witness :
    (¬ sAB.finished) ∧ pyNormalize [' ', 'A'] = ['a'] ∧ ('a'.isAlpha = true) ∧
    'a' ∉ sAB.guessed ∧
    ((guess sAB [' ', 'A'] 5).guessed = insert 'a' sAB.guessed ∧
      (guess sAB [' ', 'A'] 5).mistakes =
        (if 'a' ∈ sAB.secret then sAB.mistakes else sAB.mistakes + 1) ∧
      ((guess sAB [' ', 'A'] 5).ended_at.isSome ↔
        ((∀ ch ∈ sAB.secret, ch ∈ insert 'a' sAB.guessed) ∨
          (if 'a' ∈ sAB.secret then sAB.mistakes else sAB.mistakes + 1) ≥ sAB.max_mistakes)) ∧
      (guess sAB [' ', 'A'] 5).secret = sAB.secret ∧
      (guess sAB [' ', 'A'] 5).max_mistakes = sAB.max_mistakes ∧
      (guess sAB [' ', 'A'] 5).started_at = sAB.started_at) :=
  ⟨by decide, by decide, by decide, by decide,
    guess_valid_letter_step sAB [' ', 'A'] 5 'a' (by decide) (by decide) (by decide) (by decide)⟩

theorem guess_terminal_frozen_witness :
    sGone.finished ∧ guess sGone ['a'] 9 = sGone :=
  ⟨by decide, guess_terminal_frozen sGone ['a'] 9 (by decide)⟩

theorem guess_invalid_noop_witness :
    (∀ c, pyNormalize ['1', '2'] = [c] → c.isAlpha = false ∨ c ∈ sAB.guessed) ∧
    guess sAB ['1', '2'] 3 = sAB := by
  have hnv : pyNormalize ['1', '2'] = ['1', '2'] := by decide
  have h : ∀ c, pyNormalize ['1', '2'] = [c] → c.isAlpha = false ∨ c ∈ sAB.guessed := by
    intro c hc
    rw [hnv] at hc
    exact absurd hc (by simp)
  exact ⟨h, guess_invalid_noop sAB ['1', '2'] 3 h⟩

theorem guess_repeat_absorbed_witness :
    pyNormalize ['a'] = ['a'] ∧ ('a'.isAlpha = true) ∧
    guess (guess sAB ['a'] 1) ['a'] 2 = guess sAB ['a'] 1 :=
  ⟨by decide, by decide, guess_repeat_absorbed sAB ['a'] 1 2 'a' (by decide) (by decide)⟩

/-- The engine built from the one-word vocabulary `["ab"]` with budget 0. -/
def eAB : HangmanEngine := { words := [['a', 'b']], max_mistakes := 1 }

/-- The fresh game drawn from `eAB` at index 0, time 3. -/
def gAB : GameState := eAB.new_game 0 (by decide) 3

theorem new_game_spec_witness :
    mkEngine [['a', 'b']] 0 = Except.ok eAB ∧
    (gAB.secret ∈ specFilteredVocab [['a', 'b']] ∧
      gAB.secret ≠ [] ∧
      (∀ ch ∈ gAB.secret, ch.isAlpha = true) ∧
      gAB.guessed = ∅ ∧
      gAB.mistakes = 0 ∧
      gAB.ended_at = none ∧
      gAB.max_mistakes = max 1 0 ∧
      1 ≤ gAB.max_mistakes) :=
  ⟨rfl, new_game_spec [['a', 'b']] 0 eAB 0 (by decide) 3 rfl⟩

theorem reachable_mistakes_le_witness :
    mkEngine [['a', 'b']] 0 = Except.ok eAB ∧ Reachable eAB gAB ∧
    (gAB.mistakes ≤ gAB.max_mistakes ∧
      (gAB.lost → gAB.mistakes = gAB.max_mistakes) ∧ 0 ≤ gAB.remaining) :=
  ⟨rfl, Reachable.init 0 (by decide) 3,
    reachable_mistakes_le [['a', 'b']] 0 eAB gAB rfl (Reachable.init 0 (by decide) 3)⟩

theorem reachable_ended_iff_finished_witness :
    mkEngine [['a', 'b']] 0 = Except.ok eAB ∧
    Reachable eAB (guess gAB ['x'] 4) ∧
    ((guess gAB ['x'] 4).ended_at.isSome ↔ (guess gAB ['x'] 4).finished) :=
  ⟨rfl, Reachable.step gAB ['x'] 4 (Reachable.init 0 (by decide) 3),
    reachable_ended_iff_finished [['a', 'b']] 0 eAB (guess gAB ['x'] 4) rfl
      (Reachable.step gAB ['x'] 4 (Reachable.init 0 (by decide) 3))⟩

/-- The banana state from the spec's masked-rendering example. -/
def sBanana : GameState :=
  { secret := ['b', 'a', 'n', 'a', 'n', 'a'], max_mistakes := 6, guessed := {'b'},
    mistakes := 0, started_at := 0, ended_at := none }

theorem masked_strip_spec_witness :
    (∀ ch ∈ sBanana.secret, ch.isAlpha = true) ∧
    ((sBanana.masked.filter (fun ch => ch ≠ ' ')).length = sBanana.secret.length ∧
      sBanana.masked.filter (fun ch => ch ≠ ' ') =
        sBanana.secret.map (fun ch => if ch ∈ sBanana.guessed then ch else '_')) :=
  ⟨by decide, masked_strip_spec sBanana (by decide)⟩

end Hangman
